import Mathlib

/-!
Verification development for the health-news scraper
(`src/health_news_scraper.py`).  Strings are modelled as `List Char`;
parsed HTML as a rose tree; external capabilities (HTTP transport,
`urllib.parse.urljoin` resolution, the filesystem write) as explicit
parameters or outcome oracles, following the spec's scope section.
-/

namespace HealthNews

/-- ASCII whitespace characters matched by Python's regex class for
whitespace on ASCII text (space, tab, newline, carriage return,
vertical tab, form feed). -/
def isSpaceChar (c : Char) : Bool :=
  c = ' ' || c = '\t' || c = '\n' || c = '\r' || c = Char.ofNat 11 || c = Char.ofNat 12

/-- Python word characters on ASCII text: letters, digits, underscore. -/
def isWordChar (c : Char) : Bool :=
  c.isAlphanum || c = '_'

/-- Model of `unicodedata.normalize('NFKD', t).encode('ascii','ignore').decode('ascii')`:
NFKD decomposition followed by dropping every non-ASCII code point.  On
ASCII input NFKD is the identity, so the composite keeps exactly the
code points below 128; accented letters first decompose, their base
letter being ASCII survives.  The theorems below quantify over all
inputs, so they hold for whatever character list this step yields. -/
def asciiFold (l : List Char) : List Char :=
  l.filter (fun c => c.toNat < 128)

/-- Characters kept by the filename substitution step
(everything outside word chars, whitespace and hyphen is removed,
source line 63). -/
def keepFilenameChar (c : Char) : Bool :=
  isWordChar c || isSpaceChar c || c = '-'

/-- Characters kept by the body/title substitution step
(source line 72): word chars, whitespace, and a small punctuation set. -/
def keepBodyChar (c : Char) : Bool :=
  isWordChar c || isSpaceChar c || c = '.' || c = ',' || c = '!' || c = '?' ||
    c = Char.ofNat 39 || c = Char.ofNat 34 || c = '-'

/-- Replace every maximal run of whitespace by the single character `r`
(model of the regex substitution mapping one-or-more whitespace to a
single replacement character, source lines 64 and 73). -/
def squashRuns (r : Char) : List Char → List Char
  | [] => []
  | [c] => if isSpaceChar c then [r] else [c]
  | c :: d :: t =>
    if isSpaceChar c then
      if isSpaceChar d then squashRuns r (d :: t)
      else r :: squashRuns r (d :: t)
    else c :: squashRuns r (d :: t)

/-- Remove trailing whitespace (the right half of Python `str.strip()`). -/
def rstripWs : List Char → List Char
  | [] => []
  | c :: cs =>
    match rstripWs cs with
    | [] => if isSpaceChar c then [] else [c]
    | r => c :: r

/-- Python `str.strip()`: remove leading and trailing whitespace. -/
def stripWs (l : List Char) : List Char :=
  rstripWs (l.dropWhile (fun c => isSpaceChar c))

/-- `clean_filename` (source lines 60-65): ASCII fold, remove characters
outside word/whitespace/hyphen, strip, collapse whitespace runs to single
underscores, truncate to 50 characters. -/
def clean_filename (l : List Char) : List Char :=
  (squashRuns '_' (stripWs ((asciiFold l).filter keepFilenameChar))).take 50

/-- `clean_text` (source lines 67-74): empty or missing (`None`) input
yields empty output; otherwise ASCII fold, remove characters outside the
body-safe set, collapse whitespace runs to single spaces and strip; in
title mode (`for_body=False`) an additional strip is applied. -/
def clean_text (t : Option (List Char)) (for_body : Bool) : List Char :=
  match t with
  | none => []
  | some s =>
    if s.isEmpty then []
    else
      let u := stripWs (squashRuns ' ' ((asciiFold s).filter keepBodyChar))
      if for_body then u else stripWs u

example : clean_filename " Test, Article!! ".toList = "Test_Article".toList := by decide
example : clean_filename "".toList = [] := by decide
example : clean_text (some "  Hello,  world!  ".toList) true = "Hello, world!".toList := by
  decide
example : clean_text (some "  Hello,  world!  ".toList) false = "Hello, world!".toList := by
  decide

/-- The maximal whitespace-free tokens of a character list, in order
(runs of whitespace separate tokens; leading and trailing whitespace
produces no token).  Used only to state declarative characterizations
of the whitespace-collapsing substitutions. -/
def wsTokens : List Char → List (List Char)
  | [] => []
  | [c] => if isSpaceChar c then [] else [[c]]
  | c :: d :: t =>
    if isSpaceChar c then wsTokens (d :: t)
    else
      match wsTokens (d :: t) with
      | [] => [[c]]
      | tok :: toks => if isSpaceChar d then [c] :: tok :: toks else (c :: tok) :: toks

/-- Join tokens with a single separator character between consecutive
tokens. -/
def joinWith (r : Char) : List (List Char) → List Char
  | [] => []
  | [t] => t
  | t :: ts => t ++ r :: joinWith r ts

example : joinWith '_' (wsTokens "  ab  c d ".toList) = "ab_c_d".toList := by decide

/-- A parsed HTML node: an element with a tag, attributes and children,
or a text node.  Models the traversable tree BeautifulSoup yields. -/
inductive Node where
  | elem (tag : String) (attrs : List (String × List Char)) (children : List Node)
  | text (s : List Char)

/-- A parsed page: the document's top-level nodes. -/
abbrev Page := List Node

mutual

/-- All text contained in a node, in document order (model of the
BeautifulSoup `.text` property). -/
def textOf : Node → List Char
  | .text s => s
  | .elem _ _ cs => textOfList cs

/-- All text contained in a forest, in document order. -/
def textOfList : List Node → List Char
  | [] => []
  | n :: ns => textOf n ++ textOfList ns

end

mutual

/-- The descendant elements (the node itself included) whose tag is in
`tags`, in document (preorder) order — model of `find_all` restricted to
a tag list. -/
def findTags (tags : List String) : Node → List Node
  | .text _ => []
  | .elem t a cs =>
    (if tags.contains t then [Node.elem t a cs] else []) ++ findTagsList tags cs

/-- `findTags` over a forest, in document order. -/
def findTagsList (tags : List String) : List Node → List Node
  | [] => []
  | n :: ns => findTags tags n ++ findTagsList tags ns

end

/-- Attribute lookup on an element (`None` on a text node or a missing
attribute). -/
def getAttr (n : Node) (key : String) : Option (List Char) :=
  match n with
  | .text _ => none
  | .elem _ attrs _ => attrs.lookup key

/-- Lowercase a character list (Python `str.lower()` on ASCII text). -/
def lowerL (l : List Char) : List Char :=
  l.map Char.toLower

/-- Python's substring test `needle in hay`: some contiguous segment of
`hay` equals `needle` (the empty needle always matches). -/
def containsSub (needle : List Char) : List Char → Bool
  | [] => needle.isEmpty
  | c :: t => needle.isPrefixOf (c :: t) || containsSub needle t

/-- First descendant element of the page with the given tag, in document
order (model of `soup.find(tag)`). -/
def findTag (t : String) (p : Page) : Option Node :=
  (findTagsList [t] p).head?

/-- One extracted content element: a level-2/3 heading, a paragraph, or
a quote, with its normalized text (source lines 104-117). -/
inductive ContentElement where
  | heading (level : String) (text : List Char)
  | paragraph (text : List Char)
  | quote (text : List Char)
deriving DecidableEq

/-- The default title string (source lines 91, 95, 130). -/
def noTitle : List Char := "No Title".toList

/-- The predicate of the content-root class lookup (source line 99):
the class attribute value is non-empty and contains one of the four
keywords, case-insensitively. -/
def classOk (n : Node) : Bool :=
  match getAttr n "class" with
  | none => false
  | some x =>
    !x.isEmpty &&
      (["article", "content", "news", "body"].map String.toList).any
        (fun k => containsSub k (lowerL x))

/-- The content root chosen by `scrape_article` (source lines 98-102):
first `article` element, else the first `div` whose class matches
`classOk`, else the first `main` element; `none` means the whole page
is used. -/
def contentRoot (p : Page) : Option Node :=
  (findTag "article" p).orElse fun _ =>
    (((findTagsList ["div"] p).filter classOk).head?).orElse fun _ =>
      findTag "main" p

/-- The candidate body nodes walked by the extractor: the descendants of
the content root with tag `h2`/`h3`/`p`/`blockquote` (excluding the root
itself, as `find_all` searches descendants), or of the whole page when
no content root was found (source line 105). -/
def walkNodes (p : Page) : List Node :=
  match contentRoot p with
  | some (.elem _ _ cs) => findTagsList ["h2", "h3", "p", "blockquote"] cs
  | some (.text _) => []
  | none => findTagsList ["h2", "h3", "p", "blockquote"] p

/-- Classification of one walked node (source lines 106-117): headings
keep title-normalized text longer than 10 characters, paragraphs and
quotes keep body-normalized text longer than 20 characters. -/
def classifyNode (n : Node) : Option ContentElement :=
  match n with
  | .text _ => none
  | .elem t _ _ =>
    if t = "h2" || t = "h3" then
      let txt := clean_text (some (textOf n)) false
      if txt.isEmpty then none
      else if 10 < txt.length then some (.heading t txt) else none
    else if t = "p" then
      let txt := clean_text (some (textOf n)) true
      if txt.isEmpty then none
      else if 20 < txt.length then some (.paragraph txt) else none
    else if t = "blockquote" then
      let txt := clean_text (some (textOf n)) true
      if txt.isEmpty then none
      else if 20 < txt.length then some (.quote txt) else none
    else none

/-- The ordered qualifying content elements of a page (the element walk,
source lines 104-117). -/
def extractedElements (p : Page) : List ContentElement :=
  (walkNodes p).filterMap classifyNode

/-- The title element lookup (source line 94): first `h1`, else the
document `title`, else the first `h2`. -/
def titleElem (p : Page) : Option Node :=
  ((findTag "h1" p).orElse fun _ => findTag "title" p).orElse fun _ => findTag "h2" p

/-- The extraction pipeline after the language gate (source lines
93-126): title lookup, element walk, and the minimum-richness gate that
empties the result when fewer than 2 elements qualify. -/
def scrapeCore (p : Page) : List Char × List ContentElement :=
  let title :=
    match titleElem p with
    | some e => clean_text (some (textOf e)) false
    | none => noTitle
  let els := extractedElements p
  if els.length < 2 then (title, []) else (title, els)

/-- `scrape_article` given a successfully fetched and parsed page
(source lines 86-126), with the internal exception channel made
explicit: a page without an `html` root makes the attribute lookup on
line 87 raise (an error caught by the surrounding handler); a declared
language that is non-empty and not prefixed `en` short-circuits to an
empty result. -/
def scrape_article_inner (p : Page) : Except Unit (List Char × List ContentElement) :=
  match findTag "html" p with
  | none => .error ()
  | some root =>
    let lang := lowerL ((getAttr root "lang").getD [])
    if !lang.isEmpty && !("en".toList.isPrefixOf lang) then .ok (noTitle, [])
    else .ok (scrapeCore p)

/-- The outcome of fetching and parsing one article URL: `fail` models
any network or HTTP-status or parse exception raised inside the `try`
block of `scrape_article` before the tree is available. -/
inductive Fetch where
  | ok (p : Page)
  | fail

/-- `scrape_article` (source lines 76-130): every internal failure is
caught and turned into the default result `("No Title", [])`. -/
def scrape_article : Fetch → List Char × List ContentElement
  | .fail => (noTitle, [])
  | .ok p =>
    match scrape_article_inner p with
    | .ok r => r
    | .error _ => (noTitle, [])

example :
    scrape_article (.ok [.elem "html" [("lang", "fr".toList)] [.elem "h1" [] [.text "Bonjour le monde entier".toList]]]) =
      (noTitle, []) := by decide

example :
    scrape_article (.ok [.elem "html" [("lang", "en-GB".toList)] [.elem "body" [] [
      .elem "h1" [] [.text "A Title".toList],
      .elem "p" [] [.text "first paragraph with enough text".toList],
      .elem "p" [] [.text "second paragraph with enough text".toList]]]]) =
      ("A Title".toList,
        [.paragraph "first paragraph with enough text".toList,
         .paragraph "second paragraph with enough text".toList]) := by decide

example :
    scrape_article (.ok [.elem "html" [] [
      .elem "h1" [] [.text "A Title".toList],
      .elem "p" [] [.text "only paragraph with enough text".toList]]]) =
      ("A Title".toList, []) := by decide

/-- Remove trailing slash characters (Python `str.rstrip("/")`,
source line 187). -/
def rstripSlash (l : List Char) : List Char :=
  (l.reverse.dropWhile (fun c => c = '/')).reverse

/-- The characters following the first occurrence of a double slash, up
to the next slash; `none` when no double slash occurs (in which case the
Python expression `url.split("//")[1]` raises `IndexError`). -/
def hostAfterMarker : List Char → Option (List Char)
  | [] => none
  | [_] => none
  | c :: d :: t =>
    if c = '/' && d = '/' then some (t.takeWhile (fun e => e ≠ '/'))
    else hostAfterMarker (d :: t)

/-- The listing host substring used by the same-site filter (source line
187): `url.rstrip("/").split("//")[1].split("/")[0]`.  `none` models the
`IndexError` raised when the listing URL has no double slash, which the
source-level exception handler turns into skipping the source. -/
def listingHostOf (url : List Char) : Option (List Char) :=
  hostAfterMarker (rstripSlash url)

example : listingHostOf "https://www.bbc.com/news/health".toList = some "www.bbc.com".toList := by
  decide

/-- The blocklist of substrings that disqualify a link (source lines
188-193). -/
def blocklist : List (List Char) :=
  ["login", "signup", "advert", "privacy", "archive",
   "category", "tag", "account", "settings", "subscribe", "newsletter",
   "visa", "insurance", "podcast", "parsi", "video", "gallery", "comment",
   "default.htm", "page=", "index"].map String.toList

/-- The default allow rule (source lines 211-213): the lowercased URL
contains one of `article`, `news/`, `story`, `202`. -/
def defaultRule (href : List Char) : Bool :=
  (["article", "news/", "story", "202"].map String.toList).any
    (fun k => containsSub k (lowerL href))

/-- The per-source allow rule (source lines 194-216), keyed on the
source name, falling through to `defaultRule`. -/
def ruleFor (name href : List Char) : Bool :=
  if name = "BBC Health".toList then
    containsSub "health-".toList (lowerL href) && 4 ≤ href.count '/'
  else if name = "WebMD".toList then
    containsSub "/news/".toList (lowerL href) && 5 ≤ href.count '/'
  else if name = "The Guardian Health".toList then
    containsSub "/article/".toList (lowerL href) || containsSub "/202".toList (lowerL href)
  else defaultRule href

/-- The full acceptance test for one resolved URL (source lines
186-216): `http(s)`-absolute, listing host substring of the URL,
no blocklisted substring, and the per-source allow rule. -/
def linkAllowed (name host href : List Char) : Bool :=
  "http".toList.isPrefixOf href &&
    containsSub host href &&
    !(blocklist.any fun b => containsSub b (lowerL href)) &&
    ruleFor name href

/-- Python's `l[:m]` slice for an `int` bound `m` (source line 218):
for non-negative `m` the first `m` entries; for negative `m` everything
up to `m` entries from the end. -/
def pySliceTo (m : Int) (l : List α) : List α :=
  if 0 ≤ m then l.take m.toNat else l.take ((l.length : Int) + m).toNat

/-- The Link Classifier (source lines 179-218): resolve each harvested
href against the listing URL (resolution — `urllib.parse.urljoin` — is
an external capability and is passed in as `resolve`), keep those
passing `linkAllowed`, deduplicate, and slice to the configured bound.
The `set` used for deduplication iterates in an unspecified order; the
model fixes the order of `List.dedup`, and no theorem below depends on
which order was fixed except where stated.  The `Except` error is the
`IndexError` of `listingHostOf`, caught by the per-source handler. -/
def classifyLinks (name url : List Char) (resolve : List Char → List Char)
    (hrefs : List (List Char)) (maxA : Int) : Except Unit (List (List Char)) :=
  match listingHostOf url with
  | none => .error ()
  | some host =>
    .ok (pySliceTo maxA (((hrefs.map resolve).filter (linkAllowed name host)).dedup))

instance {ε α : Type} [DecidableEq ε] [DecidableEq α] : DecidableEq (Except ε α)
  | .error a, .error b => decidable_of_iff (a = b) (by simp)
  | .error _, .ok _ => isFalse (by simp)
  | .ok _, .error _ => isFalse (by simp)
  | .ok a, .ok b => decidable_of_iff (a = b) (by simp)

example :
    classifyLinks "Healthline".toList "https://www.healthline.com/health-news".toList id
      ["https://www.healthline.com/health-news/story-one".toList,
       "https://www.healthline.com/health-news/tag/x".toList] 5 =
      .ok ["https://www.healthline.com/health-news/story-one".toList] := by decide

/-- Decimal digit characters of a natural number, fuelled so that the
definition is structurally recursive (any fuel above the number works;
`natDigits` supplies enough). -/
def natDigitsAux : Nat → Nat → List Char
  | 0, _ => []
  | fuel + 1, n =>
    if n < 10 then [Nat.digitChar n]
    else natDigitsAux fuel (n / 10) ++ [Nat.digitChar (n % 10)]

/-- Decimal digit characters of a natural number (Python `str(idx)`). -/
def natDigits (n : Nat) : List Char :=
  natDigitsAux (n + 1) n

/-- Left fold reading decimal digit characters back into a number;
inverse of `natDigits`, used to prove it injective. -/
def valDigits (l : List Char) : Nat :=
  l.foldl (fun a c => a * 10 + (c.toNat - 48)) 0

/-- The output filename built by `save_article` (source line 136):
`source ++ _ ++ clean_filename title ++ _ ++ timestamp ++ _ ++ idx ++ .txt`. -/
def fileName (source title ts : List Char) (idx : Nat) : List Char :=
  source ++ '_' :: clean_filename title ++ '_' :: ts ++ '_' :: natDigits idx ++ ".txt".toList

/-- Model of `save_article` (source lines 132-161): computes the
filename and attempts the write; the write itself is external IO whose
success is supplied by the oracle `wOk`, and a failed write is caught
inside `save_article` (lines 159-161), so the caller observes only the
attempted filename. -/
def save_article (wOk : Nat → Bool) (title source ts : List Char) (idx : Nat) :
    List Char × Bool :=
  (fileName source title ts idx, wOk idx)

/-- The per-candidate-link loop of `fetch_health_news` (source lines
225-242): scrape each link; when elements are non-empty, call
`save_article` with the current index and advance the index (the index
advances whether or not the write inside `save_article` succeeded).
The state is the next index together with the list of
`(index, filename)` pairs passed to `save_article`, in call order. -/
def processLinks (name ts : List Char) (fetchA : List Char → Fetch) (wOk : Nat → Bool) :
    List (List Char) → Nat → List (Nat × List Char) → Nat × List (Nat × List Char)
  | [], idx, saves => (idx, saves)
  | link :: rest, idx, saves =>
    if (scrape_article (fetchA link)).2.isEmpty then
      processLinks name ts fetchA wOk rest idx saves
    else
      processLinks name ts fetchA wOk rest (idx + 1)
        (saves ++ [(idx, (save_article wOk (scrape_article (fetchA link)).1 name ts idx).1)])

/-- Outcome oracle for one configured source: its name and listing URL,
the listing fetch outcome (`none` models the listing `try` block
raising), the external URL resolver, and the per-URL article fetch
outcome. -/
structure SourceRun where
  name : List Char
  url : List Char
  listing : Option (List (List Char))
  resolve : List Char → List Char
  fetchA : List Char → Fetch

/-- One iteration of the source loop (source lines 169-247): on listing
failure or classifier exception the source is skipped; an empty
candidate list is reported and skipped; otherwise each candidate link is
processed. -/
def runSource (ts : List Char) (maxA : Int) (wOk : Nat → Bool) (s : SourceRun)
    (idx : Nat) (saves : List (Nat × List Char)) : Nat × List (Nat × List Char) :=
  match s.listing with
  | none => (idx, saves)
  | some hrefs =>
    match classifyLinks s.name s.url s.resolve hrefs maxA with
    | .error _ => (idx, saves)
    | .ok links =>
      if links.isEmpty then (idx, saves)
      else processLinks s.name ts s.fetchA wOk links idx saves

/-- `fetch_health_news` (source lines 163-248) over an oracle of source
outcomes: the timestamp `ts` is computed once (line 166) and the index
starts at 0 (line 167); both are threaded through every source. -/
def fetch_health_news (ts : List Char) (maxA : Int) (wOk : Nat → Bool) :
    List SourceRun → Nat → List (Nat × List Char) → Nat × List (Nat × List Char)
  | [], idx, saves => (idx, saves)
  | s :: ss, idx, saves =>
    let r := runSource ts maxA wOk s idx saves
    fetch_health_news ts maxA wOk ss r.1 r.2

/-- The suffix of a character list after its last underscore (the whole
list when it has no underscore).  Used to read the per-run index back
out of a filename. -/
def afterLastMark (l : List Char) : List Char :=
  (l.reverse.takeWhile (fun c => c ≠ '_')).reverse

example : afterLastMark "A_B_C_20250101_120000_12.txt".toList = "12.txt".toList := by decide
example : fileName "Src".toList "My Title!".toList "20250101_120000".toList 7 =
    "Src_My_Title_20250101_120000_7.txt".toList := by decide

/-! ### Helper lemmas about the extractor -/

/-- When the page has an `html` root whose declared language is absent,
empty, or prefixed `en`, `scrape_article` runs the post-gate pipeline. -/
theorem scrape_eq_core (p : Page) (root : Node)
    (hroot : findTag "html" p = some root)
    (hlang : lowerL ((getAttr root "lang").getD []) = [] ∨
      "en".toList.isPrefixOf (lowerL ((getAttr root "lang").getD [])) = true) :
    scrape_article (.ok p) = scrapeCore p := by
  rcases hlang with h | h
  · simp [scrape_article, scrape_article_inner, hroot, h]
  · have h' : (['e', 'n'] : List Char).isPrefixOf
        (lowerL ((getAttr root "lang").getD [])) = true := h
    simp [scrape_article, scrape_article_inner, hroot, h']

/-- The post-gate pipeline always reports the title computed from the
title-element lookup, whether or not the richness gate empties the
elements. -/
theorem scrapeCore_fst (p : Page) :
    (scrapeCore p).1 =
      match titleElem p with
      | some e => clean_text (some (textOf e)) false
      | none => noTitle := by
  simp only [scrapeCore]
  split <;> rfl

/-- A link whose scrape produced no elements is skipped: the per-link
loop continues with the index and the save list unchanged. -/
theorem processLinks_skip (name ts : List Char) (fetchA : List Char → Fetch)
    (wOk : Nat → Bool) (link : List Char) (rest : List (List Char)) (idx : Nat)
    (saves : List (Nat × List Char))
    (h : (scrape_article (fetchA link)).2 = []) :
    processLinks name ts fetchA wOk (link :: rest) idx saves =
      processLinks name ts fetchA wOk rest idx saves := by
  rcases hsa : scrape_article (fetchA link) with ⟨t, els⟩
  rw [hsa] at h
  simp only at h
  simp [processLinks, hsa, h]

/-- C8: for every fetch/parse outcome, `scrape_article` never propagates
an exception: an outright fetch failure and every internal failure of
the pipeline (here, a page without an `html` root) both yield the
default `("No Title", [])`, and a successful pipeline result is passed
through unchanged, so the caller always receives a plain pair. -/
theorem c8_never_raises (p : Page) :
    scrape_article .fail = (noTitle, []) ∧
    (∀ e, scrape_article_inner p = .error e → scrape_article (.ok p) = (noTitle, [])) ∧
    (∀ r, scrape_article_inner p = .ok r → scrape_article (.ok p) = r) := by
  refine ⟨rfl, ?_, ?_⟩ <;> intro x h <;> simp [scrape_article, h]

/-- C8 witness: a page with no `html` root makes the inner pipeline
fail, and the caught failure yields the default result. -/
theorem c8_never_raises_witness :
    scrape_article (Fetch.ok []) = (noTitle, []) :=
  (c8_never_raises []).2.1 () rfl

/-- C4: when the page's `html` root declares a non-empty language whose
lowercase form is not prefixed `en`, `scrape_article` returns the empty
elements sequence (with the default title) regardless of the page's
content; a missing or empty declared language does not trip the gate
(the full post-gate pipeline runs); and an empty-element result is a
skip, not an error: the per-link loop continues unchanged. -/
theorem c4_language_gate (p : Page) (root : Node)
    (hroot : findTag "html" p = some root) :
    (∀ lv, getAttr root "lang" = some lv → lowerL lv ≠ [] →
      "en".toList.isPrefixOf (lowerL lv) = false →
      scrape_article (.ok p) = (noTitle, [])) ∧
    ((getAttr root "lang").getD [] = [] →
      scrape_article (.ok p) = scrapeCore p) ∧
    (∀ name ts fetchA wOk link rest idx saves,
      (scrape_article (fetchA link)).2 = [] →
      processLinks name ts fetchA wOk (link :: rest) idx saves =
        processLinks name ts fetchA wOk rest idx saves) := by
  refine ⟨?_, ?_, ?_⟩
  · intro lv hlv hne hpref
    have h' : (['e', 'n'] : List Char).isPrefixOf (lowerL lv) = false := hpref
    simp [scrape_article, scrape_article_inner, hroot, hlv, hne, h']
  · intro h
    exact scrape_eq_core p root hroot (Or.inl (by simp [h, lowerL]))
  · intro name ts fetchA wOk link rest idx saves h
    exact processLinks_skip name ts fetchA wOk link rest idx saves h

/-- C4 witness: a French-declared page is rejected with empty elements,
and an English-declared page runs the pipeline. -/
theorem c4_language_gate_witness :
    scrape_article (.ok [Node.elem "html" [("lang", "fr".toList)]
      [Node.elem "p" [] [.text "ceci est un paragraphe assez long".toList],
       Node.elem "p" [] [.text "ceci est un autre paragraphe long".toList]]]) =
      (noTitle, []) :=
  (c4_language_gate
      [Node.elem "html" [("lang", "fr".toList)]
        [Node.elem "p" [] [.text "ceci est un paragraphe assez long".toList],
         Node.elem "p" [] [.text "ceci est un autre paragraphe long".toList]]]
      (Node.elem "html" [("lang", "fr".toList)]
        [Node.elem "p" [] [.text "ceci est un paragraphe assez long".toList],
         Node.elem "p" [] [.text "ceci est un autre paragraphe long".toList]])
      rfl).1 "fr".toList rfl (by decide) (by decide)

/-- C3: on a page that passes the language gate, an element walk with
exactly 1 qualifying element yields an empty elements sequence, and a
walk with exactly 2 qualifying elements yields exactly those elements
(non-empty); a link whose scrape produced no elements is not saved —
the loop continues with the save list unchanged, so no file is written
for it. -/
theorem c3_richness_gate (p : Page) (root : Node)
    (hroot : findTag "html" p = some root)
    (hlang : lowerL ((getAttr root "lang").getD []) = [] ∨
      "en".toList.isPrefixOf (lowerL ((getAttr root "lang").getD [])) = true) :
    ((extractedElements p).length = 1 → (scrape_article (.ok p)).2 = []) ∧
    ((extractedElements p).length = 2 →
      (scrape_article (.ok p)).2 = extractedElements p ∧
      (scrape_article (.ok p)).2 ≠ []) ∧
    (∀ name ts fetchA wOk link rest idx saves,
      (scrape_article (fetchA link)).2 = [] →
      processLinks name ts fetchA wOk (link :: rest) idx saves =
        processLinks name ts fetchA wOk rest idx saves) := by
  rw [scrape_eq_core p root hroot hlang]
  refine ⟨?_, ?_, ?_⟩
  · intro h1
    simp [scrapeCore, h1]
  · intro h2
    have hne : extractedElements p ≠ [] := by
      intro h
      rw [h] at h2
      simp at h2
    constructor <;> simp [scrapeCore, h2, hne]
  · intro name ts fetchA wOk link rest idx saves h
    exact processLinks_skip name ts fetchA wOk link rest idx saves h

/-- Concrete page for the C3 witness: two qualifying paragraphs. -/
def c3page : Page :=
  [Node.elem "html" [] [
    Node.elem "h1" [] [.text "A Title".toList],
    Node.elem "p" [] [.text "first paragraph with enough text".toList],
    Node.elem "p" [] [.text "second paragraph with enough text".toList]]]

/-- C3 witness: a page whose walk yields exactly 2 qualifying elements
produces exactly those elements, non-empty. -/
theorem c3_richness_gate_witness :
    (scrape_article (.ok c3page)).2 = extractedElements c3page ∧
    (scrape_article (.ok c3page)).2 ≠ [] :=
  (c3_richness_gate c3page (Node.elem "html" [] [
    Node.elem "h1" [] [.text "A Title".toList],
    Node.elem "p" [] [.text "first paragraph with enough text".toList],
    Node.elem "p" [] [.text "second paragraph with enough text".toList]])
    rfl (Or.inl rfl)).2.1 (by decide)

/-- Concrete page for the C2 counterexample: a title element (`h1`)
exists but holds no text, so its normalized text is empty. -/
def c2page : Page :=
  [Node.elem "html" [] [Node.elem "h1" [] []]]

/-- C2 counterexample: on a page where a title element is found but its
normalized text is empty, `scrape_article` returns the empty string as
the title, not the `"No Title"` default the claim asserts. -/
theorem c2_counterexample :
    (titleElem c2page).isSome = true ∧
    (scrape_article (.ok c2page)).1 = [] ∧
    ¬ (scrape_article (.ok c2page)).1 = noTitle := by decide

/-- C2 amended: on a page passing the language gate, the `"No Title"`
default applies exactly when no title element (`h1`, else `title`, else
`h2`) exists; when a title element is found, the reported title is its
normalized text — which is the empty string when the extraction yields
empty text, not `"No Title"`. -/
theorem c2_title_default (p : Page) (root : Node)
    (hroot : findTag "html" p = some root)
    (hlang : lowerL ((getAttr root "lang").getD []) = [] ∨
      "en".toList.isPrefixOf (lowerL ((getAttr root "lang").getD [])) = true) :
    (titleElem p = none → (scrape_article (.ok p)).1 = noTitle) ∧
    (∀ e, titleElem p = some e →
      (scrape_article (.ok p)).1 = clean_text (some (textOf e)) false) := by
  rw [scrape_eq_core p root hroot hlang]
  constructor
  · intro h
    rw [scrapeCore_fst, h]
  · intro e h
    rw [scrapeCore_fst, h]

/-- C2 witness: a page with no title element at all reports the
`"No Title"` default. -/
theorem c2_title_default_witness :
    (scrape_article (.ok [Node.elem "html" [] []])).1 = noTitle :=
  (c2_title_default [Node.elem "html" [] []] (Node.elem "html" [] [])
    rfl (Or.inl rfl)).1 rfl

/-! ### Helper lemmas about the classifier -/

/-- Every entry of a Python slice `l[:m]` is an entry of `l`. -/
theorem mem_pySliceTo {α : Type} {a : α} {m : Int} {l : List α}
    (h : a ∈ pySliceTo m l) : a ∈ l := by
  unfold pySliceTo at h
  split at h <;> exact List.take_subset _ _ h

/-- Every classified link passed the `linkAllowed` test. -/
theorem classifyLinks_allowed (name url : List Char) (resolve : List Char → List Char)
    (hrefs : List (List Char)) (maxA : Int) (host : List Char)
    (links : List (List Char))
    (hhost : listingHostOf url = some host)
    (hok : classifyLinks name url resolve hrefs maxA = .ok links) :
    ∀ link ∈ links, linkAllowed name host link = true := by
  intro link hmem
  unfold classifyLinks at hok
  rw [hhost] at hok
  simp only [Except.ok.injEq] at hok
  rw [← hok] at hmem
  have h1 := mem_pySliceTo hmem
  rw [List.mem_dedup] at h1
  exact (List.mem_filter.mp h1).2

/-- Listing URL of the C1 counterexample (the Healthline source). -/
def c1url : List Char := "https://www.healthline.com/health-news".toList

/-- A link on a foreign host that carries the listing host inside its
query string. -/
def c1bad : List Char := "https://evil.example/article?u=www.healthline.com".toList

/-- C1 counterexample: the classifier accepts a URL whose host component
(`evil.example`) does not contain the listing host — the same-site
filter only requires the listing host to occur somewhere in the whole
URL string (here, in the query), not in its host component. -/
theorem c1_counterexample :
    classifyLinks "Healthline".toList c1url id [c1bad] 1 = .ok [c1bad] ∧
    listingHostOf c1url = some "www.healthline.com".toList ∧
    listingHostOf c1bad = some "evil.example".toList ∧
    containsSub "www.healthline.com".toList "evil.example".toList = false := by decide

/-- C1 amended: every classified link's absolute URL contains the
source's listing host as a substring of the whole URL string (the
same-site filter constrains the URL as a whole, not specifically its
host component). -/
theorem c1_same_site_whole_url (name url : List Char) (resolve : List Char → List Char)
    (hrefs : List (List Char)) (maxA : Int) (host : List Char)
    (links : List (List Char))
    (hhost : listingHostOf url = some host)
    (hok : classifyLinks name url resolve hrefs maxA = .ok links) :
    ∀ link ∈ links, containsSub host link = true := by
  intro link hmem
  have h := classifyLinks_allowed name url resolve hrefs maxA host links hhost hok link hmem
  unfold linkAllowed at h
  simp only [Bool.and_eq_true] at h
  exact h.1.1.2

/-- C1 witness: a genuine same-host Healthline link is classified, and
the theorem applies to it. -/
theorem c1_same_site_whole_url_witness :
    containsSub "www.healthline.com".toList
      "https://www.healthline.com/health-news/story-one".toList = true :=
  c1_same_site_whole_url "Healthline".toList c1url id
    ["https://www.healthline.com/health-news/story-one".toList] 1
    "www.healthline.com".toList
    ["https://www.healthline.com/health-news/story-one".toList]
    (by decide) (by decide)
    "https://www.healthline.com/health-news/story-one".toList (by decide)

/-- Listing URL used by the concrete C10 scenario. -/
def c10url : List Char := "https://www.healthline.com/health-news".toList

/-- Three distinct passing hrefs for the concrete C10 scenario. -/
def c10hrefs : List (List Char) :=
  ["https://www.healthline.com/health-news/story-one".toList,
   "https://www.healthline.com/health-news/article-two".toList,
   "https://www.healthline.com/health-news/2025-flu-shot".toList]

/-- The classifier output in the concrete C10 scenario with cap `-1`:
all deduplicated links except the last one. -/
def c10expect : List (List Char) :=
  ["https://www.healthline.com/health-news/story-one".toList,
   "https://www.healthline.com/health-news/article-two".toList]

/-- C10: a cap of 0 classifies no links and the source is skipped with
the run state unchanged; a negative cap `-k` returns all deduplicated
links except the last `k` (so the candidate count is not bounded by the
flag's absolute value — concretely, cap `-1` on three candidates yields
2 links, more than `|-1|`). -/
theorem c10_nonpositive_cap (name url : List Char) (resolve : List Char → List Char)
    (fetchA : List Char → Fetch) (hrefs : List (List Char)) (host : List Char)
    (hhost : listingHostOf url = some host) :
    (classifyLinks name url resolve hrefs 0 = .ok []) ∧
    (∀ ts wOk idx saves,
      runSource ts 0 wOk ⟨name, url, some hrefs, resolve, fetchA⟩ idx saves =
        (idx, saves)) ∧
    (∀ k : Nat, 0 < k →
      classifyLinks name url resolve hrefs (-(k : Int)) =
        .ok ((((hrefs.map resolve).filter (linkAllowed name host)).dedup).take
          ((((hrefs.map resolve).filter (linkAllowed name host)).dedup).length - k))) ∧
    (classifyLinks "Healthline".toList c10url id c10hrefs (-1) = .ok c10expect ∧
      1 < c10expect.length) := by
  have h0 : classifyLinks name url resolve hrefs 0 = .ok [] := by
    unfold classifyLinks
    rw [hhost]
    simp [pySliceTo]
  refine ⟨h0, ?_, ?_, by decide⟩
  · intro ts wOk idx saves
    unfold runSource
    simp [h0]
  · intro k hk
    have hneg : ¬ (0 : Int) ≤ -(k : Int) := by omega
    unfold classifyLinks
    rw [hhost]
    show Except.ok (pySliceTo (-(k : Int)) _) = _
    rw [pySliceTo, if_neg hneg]
    simp only [Except.ok.injEq]
    congr 1
    omega

/-- C10 witness: the concrete Healthline listing URL has a host, so the
hypothesis is satisfiable; with cap 0 the classifier returns no links. -/
theorem c10_nonpositive_cap_witness :
    classifyLinks "Healthline".toList c10url id c10hrefs 0 = .ok [] :=
  (c10_nonpositive_cap "Healthline".toList c10url id (fun _ => .fail)
    c10hrefs "www.healthline.com".toList (by decide)).1

/-- Source name of the concrete C5 scenario. -/
def c5name : List Char := "Healthline".toList

/-- Listing URL of the concrete C5 scenario. -/
def c5url : List Char := "https://www.healthline.com/health-news".toList

/-- A listing of 10 links: 3 pass the default allow rule and 7 carry
blocklisted substrings. -/
def c5hrefs : List (List Char) :=
  ["https://www.healthline.com/health-news/story-one".toList,
   "https://www.healthline.com/login".toList,
   "https://www.healthline.com/signup".toList,
   "https://www.healthline.com/health-news/article-two".toList,
   "https://www.healthline.com/advert-block".toList,
   "https://www.healthline.com/privacy-policy".toList,
   "https://www.healthline.com/podcast-list".toList,
   "https://www.healthline.com/health-news/2025-flu-shot".toList,
   "https://www.healthline.com/photo-gallery".toList,
   "https://www.healthline.com/insurance-offers".toList]

/-- The 3 surviving links of the concrete C5 scenario, post-filter and
post-dedup. -/
def c5filtered : List (List Char) :=
  ["https://www.healthline.com/health-news/story-one".toList,
   "https://www.healthline.com/health-news/article-two".toList,
   "https://www.healthline.com/health-news/2025-flu-shot".toList]

/-- C5 counterexample: with the configured cap `-1` (an `int` the CLI
accepts), the classifier returns 2 candidates on the concrete scenario
listing, so its output length is not at most the configured cap. -/
theorem c5_counterexample :
    classifyLinks c5name c5url id c5hrefs (-1) = .ok (c5filtered.take 2) ∧
    ¬ (((c5filtered.take 2).length : Int) ≤ -1) := by decide

/-- C5 amended: for every *non-negative* configured cap the classifier
output has no duplicates and length at most the cap; on the concrete
10-link listing with 3 passing and 7 blocklisted links it returns
exactly `min(cap, 3)` candidates. -/
theorem c5_cap_nonneg (name url : List Char) (resolve : List Char → List Char)
    (hrefs : List (List Char)) (m : Int) (host : List Char) (links : List (List Char))
    (hhost : listingHostOf url = some host) (hm : 0 ≤ m)
    (hok : classifyLinks name url resolve hrefs m = .ok links) :
    links.Nodup ∧ ((links.length : Int) ≤ m) ∧
    (∀ m' : Int, 0 ≤ m' → ∀ links',
      classifyLinks c5name c5url id c5hrefs m' = .ok links' →
      links'.length = min m'.toNat 3) := by
  unfold classifyLinks at hok
  rw [hhost] at hok
  simp only [Except.ok.injEq] at hok
  subst hok
  refine ⟨?_, ?_, ?_⟩
  · unfold pySliceTo
    split <;> exact List.Nodup.sublist (List.take_sublist _ _) (List.nodup_dedup _)
  · rw [pySliceTo, if_pos hm]
    have := List.length_take_le m.toNat
      (((hrefs.map resolve).filter (linkAllowed name host)).dedup)
    omega
  · intro m' hm' links' hok'
    have hconc : classifyLinks c5name c5url id c5hrefs m' =
        .ok (pySliceTo m' c5filtered) := rfl
    rw [hconc] at hok'
    simp only [Except.ok.injEq] at hok'
    subst hok'
    rw [pySliceTo, if_pos hm', List.length_take]
    rfl

/-- C5 witness: with cap 2 the concrete scenario yields the first two
surviving links — duplicate-free and within the cap. -/
theorem c5_cap_nonneg_witness :
    (c5filtered.take 2).Nodup ∧ (((c5filtered.take 2).length : Int) ≤ 2) :=
  ⟨(c5_cap_nonneg c5name c5url id c5hrefs 2 "www.healthline.com".toList
      (c5filtered.take 2) (by decide) (by decide) (by decide)).1,
   (c5_cap_nonneg c5name c5url id c5hrefs 2 "www.healthline.com".toList
      (c5filtered.take 2) (by decide) (by decide) (by decide)).2.1⟩

/-! ### Helper lemmas about stripping -/

/-- Dropping a satisfied prefix twice is the same as dropping it once. -/
theorem dropWhile_idem {α : Type} (p : α → Bool) (l : List α) :
    (l.dropWhile p).dropWhile p = l.dropWhile p := by
  induction l with
  | nil => rfl
  | cons c cs ih =>
    by_cases h : p c = true <;> simp [List.dropWhile_cons, h, ih]

/-- `rstripWs` erases the whole list exactly when it is all whitespace. -/
theorem rstripWs_eq_nil (l : List Char) :
    rstripWs l = [] ↔ ∀ c ∈ l, isSpaceChar c = true := by
  induction l with
  | nil => simp [rstripWs]
  | cons c cs ih =>
    rw [rstripWs]
    cases h : rstripWs cs with
    | nil =>
      have hcs : ∀ x ∈ cs, isSpaceChar x = true := ih.mp h
      by_cases hc : isSpaceChar c = true
      · simp [hc]
        exact hcs
      · simp [hc]
    | cons x xs =>
      have hne : ¬ ∀ x ∈ cs, isSpaceChar x = true := by
        intro hall
        rw [ih.mpr hall] at h
        cases h
      constructor
      · intro habs
        cases habs
      · intro hall
        exact absurd (fun y hy => hall y (List.mem_cons_of_mem _ hy)) hne

/-- Left and right whitespace stripping commute. -/
theorem dropWhile_rstripWs_comm (l : List Char) :
    (rstripWs l).dropWhile (fun c => isSpaceChar c) =
      rstripWs (l.dropWhile (fun c => isSpaceChar c)) := by
  induction l with
  | nil => rfl
  | cons c cs ih =>
    rw [rstripWs]
    cases h : rstripWs cs with
    | nil =>
      have hcs : ∀ x ∈ cs, isSpaceChar x = true := (rstripWs_eq_nil cs).mp h
      have hdrop : cs.dropWhile (fun c => isSpaceChar c) = [] :=
        List.dropWhile_eq_nil_iff.mpr hcs
      by_cases hc : isSpaceChar c = true <;>
        simp [List.dropWhile_cons, hc, hdrop, rstripWs, h]
    | cons x xs =>
      by_cases hc : isSpaceChar c = true
      · show List.dropWhile (fun c => isSpaceChar c) (c :: x :: xs) =
          rstripWs (List.dropWhile (fun c => isSpaceChar c) (c :: cs))
        rw [List.dropWhile_cons, if_pos hc, ← h, ih, List.dropWhile_cons, if_pos hc]
      · show List.dropWhile (fun c => isSpaceChar c) (c :: x :: xs) =
          rstripWs (List.dropWhile (fun c => isSpaceChar c) (c :: cs))
        rw [List.dropWhile_cons, if_neg hc, List.dropWhile_cons, if_neg hc, rstripWs, h]

/-- `rstripWs` is idempotent. -/
theorem rstripWs_idem (l : List Char) : rstripWs (rstripWs l) = rstripWs l := by
  induction l with
  | nil => rfl
  | cons c cs ih =>
    rw [rstripWs]
    cases h : rstripWs cs with
    | nil =>
      by_cases hc : isSpaceChar c = true <;> simp [hc, rstripWs]
    | cons x xs =>
      show rstripWs (c :: x :: xs) = c :: x :: xs
      rw [rstripWs]
      have hxs : rstripWs (x :: xs) = x :: xs := by
        rw [← h, ih, h]
      rw [hxs]

/-- Python `str.strip()` is idempotent. -/
theorem stripWs_idem (l : List Char) : stripWs (stripWs l) = stripWs l := by
  unfold stripWs
  rw [dropWhile_rstripWs_comm, dropWhile_idem, rstripWs_idem]

/-- C7: `clean_text` produces the same output in body mode as in title
mode on every input, and `None`/empty input yields the empty string in
both modes (totally, with no error channel). -/
theorem c7_modes_agree :
    (∀ t, clean_text t true = clean_text t false) ∧
    clean_text none true = [] ∧ clean_text none false = [] ∧
    clean_text (some []) true = [] ∧ clean_text (some []) false = [] := by
  refine ⟨?_, rfl, rfl, rfl, rfl⟩
  intro t
  match t with
  | none => rfl
  | some s =>
    by_cases hs : s.isEmpty <;> simp [clean_text, hs, stripWs_idem]

/-! ### Token characterization of the whitespace collapse -/

/-- Whether a character list begins with whitespace. -/
def startsSpace : List Char → Bool
  | [] => false
  | c :: _ => isSpaceChar c

/-- Whether a character list ends with whitespace. -/
def endsSpace : List Char → Bool
  | [] => false
  | [c] => isSpaceChar c
  | _ :: d :: t => endsSpace (d :: t)

/-- Every character of `squashRuns r l` is the separator or a
non-whitespace character of `l`. -/
theorem mem_squashRuns (r : Char) (l : List Char) :
    ∀ c ∈ squashRuns r l, c = r ∨ (c ∈ l ∧ isSpaceChar c = false) := by
  induction l with
  | nil => intro c hc; cases hc
  | cons a cs ih =>
    cases cs with
    | nil =>
      intro c hc
      by_cases ha : isSpaceChar a = true <;> simp [squashRuns, ha] at hc
      · exact Or.inl hc
      · subst hc
        exact Or.inr ⟨List.mem_singleton_self c, Bool.eq_false_iff.mpr ha⟩
    | cons d t =>
      intro c hc
      by_cases ha : isSpaceChar a = true
      · by_cases hd : isSpaceChar d = true
        · rw [squashRuns, if_pos ha, if_pos hd] at hc
          rcases ih c hc with h | ⟨hmem, hsp⟩
          · exact Or.inl h
          · exact Or.inr ⟨List.mem_cons_of_mem _ hmem, hsp⟩
        · rw [squashRuns, if_pos ha, if_neg hd] at hc
          rcases List.mem_cons.mp hc with h | h
          · exact Or.inl h
          · rcases ih c h with h' | ⟨hmem, hsp⟩
            · exact Or.inl h'
            · exact Or.inr ⟨List.mem_cons_of_mem _ hmem, hsp⟩
      · rw [squashRuns, if_neg ha] at hc
        rcases List.mem_cons.mp hc with h | h
        · subst h
          exact Or.inr ⟨List.mem_cons_self _ _, Bool.eq_false_iff.mpr ha⟩
        · rcases ih c h with h' | ⟨hmem, hsp⟩
          · exact Or.inl h'
          · exact Or.inr ⟨List.mem_cons_of_mem _ hmem, hsp⟩

/-- A character list tokenizes to nothing exactly when it is all
whitespace. -/
theorem wsTokens_eq_nil (l : List Char) :
    wsTokens l = [] ↔ ∀ c ∈ l, isSpaceChar c = true := by
  induction l with
  | nil => simp [wsTokens]
  | cons a cs ih =>
    cases cs with
    | nil =>
      by_cases ha : isSpaceChar a = true <;> simp [wsTokens, ha]
    | cons d t =>
      by_cases ha : isSpaceChar a = true
      · rw [wsTokens, if_pos ha]
        rw [ih]
        simp [ha]
      · rw [wsTokens, if_neg ha]
        cases htok : wsTokens (d :: t) with
        | nil => simp [ha]
        | cons tok toks =>
          by_cases hd : isSpaceChar d = true <;> simp [ha, hd]

/-- A list that is all whitespace and non-empty ends with whitespace. -/
theorem endsSpace_all_space (l : List Char) (hne : l ≠ [])
    (hall : ∀ c ∈ l, isSpaceChar c = true) : endsSpace l = true := by
  induction l with
  | nil => exact absurd rfl hne
  | cons a cs ih =>
    cases cs with
    | nil => simpa [endsSpace] using hall a (List.mem_cons_self _ _)
    | cons d t =>
      rw [endsSpace]
      exact ih (List.cons_ne_nil _ _) (fun c hc => hall c (List.mem_cons_of_mem _ hc))

/-- Prepending a character to the first token prepends it to the
joined result. -/
theorem joinWith_cons_cons (r a : Char) (tok : List Char) (toks : List (List Char)) :
    joinWith r ((a :: tok) :: toks) = a :: joinWith r (tok :: toks) := by
  cases toks <;> simp [joinWith]

/-- How `squashRuns` relates to the token decomposition of its input:
an all-whitespace input collapses to a single separator, and otherwise
the output is the separator-joined tokens, padded with one separator on
each side that began or ended with whitespace. -/
theorem squashRuns_pad (r : Char) (l : List Char) :
    (wsTokens l = [] → squashRuns r l = if l.isEmpty then [] else [r]) ∧
    (wsTokens l ≠ [] →
      squashRuns r l =
        (if startsSpace l then [r] else []) ++ joinWith r (wsTokens l) ++
          (if endsSpace l then [r] else [])) := by
  induction l with
  | nil => exact ⟨fun _ => rfl, fun h => absurd rfl h⟩
  | cons a cs ih =>
    cases cs with
    | nil =>
      by_cases ha : isSpaceChar a = true
      · refine ⟨fun _ => by simp [squashRuns, ha], fun h => ?_⟩
        exact absurd (by simp [wsTokens, ha]) h
      · refine ⟨fun h => absurd h (by simp [wsTokens, ha]), fun _ => ?_⟩
        simp [squashRuns, wsTokens, startsSpace, endsSpace, ha, joinWith]
    | cons d t =>
      by_cases ha : isSpaceChar a = true
      · by_cases hd : isSpaceChar d = true
        · have hsq : squashRuns r (a :: d :: t) = squashRuns r (d :: t) := by
            rw [squashRuns, if_pos ha, if_pos hd]
          have htk : wsTokens (a :: d :: t) = wsTokens (d :: t) := by
            rw [wsTokens, if_pos ha]
          constructor
          · intro h
            rw [htk] at h
            rw [hsq, ih.1 h]
            simp
          · intro h
            rw [htk] at h
            rw [hsq, ih.2 h, htk]
            simp [startsSpace, hd, ha, endsSpace]
        · have hsq : squashRuns r (a :: d :: t) = r :: squashRuns r (d :: t) := by
            rw [squashRuns, if_pos ha, if_neg hd]
          have htk : wsTokens (a :: d :: t) = wsTokens (d :: t) := by
            rw [wsTokens, if_pos ha]
          have hne : wsTokens (d :: t) ≠ [] := by
            intro hnil
            have := (wsTokens_eq_nil (d :: t)).mp hnil d (List.mem_cons_self _ _)
            rw [this] at hd
            exact hd rfl
          constructor
          · intro h
            rw [htk] at h
            exact absurd h hne
          · intro _
            rw [hsq, ih.2 hne, htk]
            simp [startsSpace, ha, hd, endsSpace]
      · have hsq : squashRuns r (a :: d :: t) = a :: squashRuns r (d :: t) := by
          rw [squashRuns, if_neg ha]
        have hne : wsTokens (a :: d :: t) ≠ [] := by
          intro hnil
          have := (wsTokens_eq_nil _).mp hnil a (List.mem_cons_self _ _)
          rw [this] at ha
          exact ha rfl
        refine ⟨fun h => absurd h hne, fun _ => ?_⟩
        cases htok : wsTokens (d :: t) with
        | nil =>
          have hall : ∀ c ∈ d :: t, isSpaceChar c = true := (wsTokens_eq_nil _).mp htok
          have hsq2 : squashRuns r (d :: t) = [r] := by
            rw [ih.1 htok]
            simp
          have htk : wsTokens (a :: d :: t) = [[a]] := by
            rw [wsTokens, if_neg ha, htok]
          have hend : endsSpace (a :: d :: t) = true := by
            rw [endsSpace]
            exact endsSpace_all_space _ (List.cons_ne_nil _ _) hall
          rw [hsq, hsq2, htk, hend]
          simp [startsSpace, ha, joinWith]
        | cons tok toks =>
          have hne2 : wsTokens (d :: t) ≠ [] := by rw [htok]; exact List.cons_ne_nil _ _
          have hrec := ih.2 hne2
          rw [htok] at hrec
          have hend : endsSpace (a :: d :: t) = endsSpace (d :: t) := rfl
          by_cases hd : isSpaceChar d = true
          · have htk : wsTokens (a :: d :: t) = [a] :: tok :: toks := by
              rw [wsTokens, if_neg ha, htok]
              simp [hd]
            rw [hsq, hrec, htk, hend]
            simp [startsSpace, ha, hd, joinWith]
          · have htk : wsTokens (a :: d :: t) = (a :: tok) :: toks := by
              rw [wsTokens, if_neg ha, htok]
              simp [hd]
            rw [hsq, hrec, htk, hend, joinWith_cons_cons]
            simp [startsSpace, ha, hd]

/-- Tokenization ignores leading whitespace. -/
theorem wsTokens_dropWhile (l : List Char) :
    wsTokens (l.dropWhile (fun c => isSpaceChar c)) = wsTokens l := by
  induction l with
  | nil => rfl
  | cons a cs ih =>
    by_cases ha : isSpaceChar a = true
    · rw [List.dropWhile_cons, if_pos ha, ih]
      cases cs with
      | nil => simp [wsTokens, ha]
      | cons d t => rw [wsTokens, if_pos ha]
    · rw [List.dropWhile_cons, if_neg ha]

/-- `rstripWs` either erases a non-empty list or keeps its head. -/
theorem rstripWs_head (c : Char) (cs : List Char) :
    rstripWs (c :: cs) = [] ∨ ∃ rr, rstripWs (c :: cs) = c :: rr := by
  rw [rstripWs]
  cases h : rstripWs cs with
  | nil =>
    by_cases hc : isSpaceChar c = true
    · exact Or.inl (by simp [hc])
    · exact Or.inr ⟨[], by simp [hc]⟩
  | cons x xs => exact Or.inr ⟨x :: xs, rfl⟩

/-- Tokenization ignores trailing whitespace. -/
theorem wsTokens_rstripWs (l : List Char) :
    wsTokens (rstripWs l) = wsTokens l := by
  induction l with
  | nil => rfl
  | cons a cs ih =>
    rw [rstripWs]
    cases h : rstripWs cs with
    | nil =>
      have hcs : ∀ x ∈ cs, isSpaceChar x = true := (rstripWs_eq_nil cs).mp h
      by_cases ha : isSpaceChar a = true
      · rw [if_pos ha, (wsTokens_eq_nil (a :: cs)).mpr ?_]
        · rfl
        · intro c hc
          rcases List.mem_cons.mp hc with h' | h'
          · rw [h']; exact ha
          · exact hcs c h'
      · rw [if_neg ha]
        cases cs with
        | nil => rfl
        | cons d t =>
          have hnil : wsTokens (d :: t) = [] := (wsTokens_eq_nil _).mpr hcs
          simp [wsTokens, ha, hnil]
    | cons x xs =>
      have hcs : cs ≠ [] := by
        intro habs
        rw [habs] at h
        cases h
      obtain ⟨e, cs', rfl⟩ := List.exists_cons_of_ne_nil hcs
      have hx : x = e := by
        rcases rstripWs_head e cs' with h0 | ⟨rr, hrr⟩
        · rw [h0] at h; cases h
        · rw [hrr] at h
          exact (List.cons.injEq _ _ _ _ ▸ h).1.symm
      subst hx
      have hIH : wsTokens (x :: xs) = wsTokens (x :: cs') := by
        rw [← h, ih]
      by_cases ha : isSpaceChar a = true
      · rw [wsTokens, if_pos ha, wsTokens, if_pos ha]
        exact hIH
      · rw [wsTokens, if_neg ha, wsTokens, if_neg ha, hIH]

/-- Dropping leading whitespace leaves no leading whitespace. -/
theorem startsSpace_dropWhile (l : List Char) :
    startsSpace (l.dropWhile (fun c => isSpaceChar c)) = false := by
  induction l with
  | nil => rfl
  | cons a cs ih =>
    by_cases ha : isSpaceChar a = true
    · rw [List.dropWhile_cons, if_pos ha]
      exact ih
    · rw [List.dropWhile_cons, if_neg ha]
      show isSpaceChar a = false
      exact Bool.eq_false_iff.mpr ha

/-- `rstripWs` keeps the absence of leading whitespace. -/
theorem startsSpace_rstripWs (l : List Char) (h : startsSpace l = false) :
    startsSpace (rstripWs l) = false := by
  cases l with
  | nil => rfl
  | cons c cs =>
    rcases rstripWs_head c cs with h0 | ⟨rr, hrr⟩
    · rw [h0]; rfl
    · rw [hrr]; exact h

/-- `rstripWs` leaves no trailing whitespace. -/
theorem endsSpace_rstripWs (l : List Char) : endsSpace (rstripWs l) = false := by
  induction l with
  | nil => rfl
  | cons c cs ih =>
    rw [rstripWs]
    cases h : rstripWs cs with
    | nil =>
      by_cases hc : isSpaceChar c = true <;> simp [hc, endsSpace]
    | cons x xs =>
      show endsSpace (c :: x :: xs) = false
      rw [endsSpace, ← h]
      exact ih

/-- Stripped output has no leading whitespace. -/
theorem startsSpace_stripWs (l : List Char) : startsSpace (stripWs l) = false :=
  startsSpace_rstripWs _ (startsSpace_dropWhile l)

/-- Stripped output has no trailing whitespace. -/
theorem endsSpace_stripWs (l : List Char) : endsSpace (stripWs l) = false :=
  endsSpace_rstripWs _

/-- Strip-then-collapse equals joining the whitespace-free tokens with
single separators: the operational pipeline and the declarative reading
agree. -/
theorem squash_strip_tokens (r : Char) (l : List Char) :
    squashRuns r (stripWs l) = joinWith r (wsTokens l) := by
  have htk : wsTokens (stripWs l) = wsTokens l := by
    unfold stripWs
    rw [wsTokens_rstripWs, wsTokens_dropWhile]
  cases htok : wsTokens (stripWs l) with
  | nil =>
    have hstrip : stripWs l = [] := by
      cases hs : stripWs l with
      | nil => rfl
      | cons x xs =>
        have hall := (wsTokens_eq_nil _).mp htok
        rw [hs] at hall
        have hx := hall x (List.mem_cons_self _ _)
        have hstart : startsSpace (stripWs l) = false := startsSpace_stripWs l
        rw [hs] at hstart
        rw [show startsSpace (x :: xs) = isSpaceChar x from rfl, hx] at hstart
        cases hstart
    rw [hstrip, ← htk, htok]
    rfl
  | cons tok toks =>
    have hne : wsTokens (stripWs l) ≠ [] := by
      rw [htok]; exact List.cons_ne_nil _ _
    have hpad := (squashRuns_pad r (stripWs l)).2 hne
    rw [startsSpace_stripWs, endsSpace_stripWs] at hpad
    rw [hpad, htk]
    simp

/-- Membership in `rstripWs` implies membership in the input. -/
theorem mem_rstripWs {c : Char} {l : List Char} (h : c ∈ rstripWs l) : c ∈ l := by
  induction l with
  | nil => simp [rstripWs] at h
  | cons a cs ih =>
    rw [rstripWs] at h
    cases hr : rstripWs cs with
    | nil =>
      rw [hr] at h
      by_cases ha : isSpaceChar a = true
      · rw [if_pos ha] at h; cases h
      · rw [if_neg ha] at h
        rw [List.mem_singleton.mp h]
        exact List.mem_cons_self _ _
    | cons x xs =>
      rw [hr] at h
      rcases List.mem_cons.mp h with h' | h'
      · rw [h']; exact List.mem_cons_self _ _
      · exact List.mem_cons_of_mem _ (ih (hr ▸ h'))

/-- Membership in `stripWs` implies membership in the input. -/
theorem mem_stripWs {c : Char} {l : List Char} (h : c ∈ stripWs l) : c ∈ l := by
  have h1 : c ∈ l.dropWhile (fun c => isSpaceChar c) := mem_rstripWs h
  exact (List.dropWhile_sublist _).subset h1

/-- Restating the pipeline through tokens: `clean_filename` is the
underscore-joined whitespace-free tokens of the filtered input,
truncated to 50 characters. -/
theorem clean_filename_tokens (l : List Char) :
    clean_filename l =
      (joinWith '_' (wsTokens ((asciiFold l).filter keepFilenameChar))).take 50 := by
  unfold clean_filename
  rw [squash_strip_tokens]

/-- C6 counterexample: on the input `" a"` the code outputs `"a"` —
the leading whitespace run is removed by the strip, not replaced by a
single underscore as the claim asserts (which would give `"_a"`). -/
theorem c6_counterexample :
    clean_filename " a".toList = "a".toList ∧
    (squashRuns '_' ((asciiFold " a".toList).filter keepFilenameChar)).take 50 =
      "_a".toList ∧
    ¬ ("a".toList = "_a".toList) := by decide

/-- C6 amended: `clean_filename` output never exceeds 50 characters and
contains only alphanumerics, underscores and hyphens; every *interior*
run of whitespace is replaced by a single underscore while leading and
trailing whitespace is removed (the output is exactly the
underscore-joined whitespace-free tokens of the filtered input,
truncated to 50); it is a pure function and the empty string maps to
the empty string. -/
theorem c6_filename_normalization (l : List Char) :
    (clean_filename l).length ≤ 50 ∧
    (∀ c ∈ clean_filename l, c.isAlphanum = true ∨ c = '_' ∨ c = '-') ∧
    clean_filename l =
      (joinWith '_' (wsTokens ((asciiFold l).filter keepFilenameChar))).take 50 ∧
    clean_filename [] = [] := by
  refine ⟨List.length_take_le _ _, ?_, clean_filename_tokens l, rfl⟩
  intro c hc
  have hc' : c ∈ squashRuns '_' (stripWs ((asciiFold l).filter keepFilenameChar)) :=
    List.take_subset _ _ hc
  rcases mem_squashRuns '_' _ c hc' with h | ⟨hmem, hsp⟩
  · exact Or.inr (Or.inl h)
  · have hmem2 : c ∈ (asciiFold l).filter keepFilenameChar := mem_stripWs hmem
    have hkeep : keepFilenameChar c = true := (List.mem_filter.mp hmem2).2
    unfold keepFilenameChar isWordChar at hkeep
    simp only [Bool.or_eq_true, decide_eq_true_eq] at hkeep
    rcases hkeep with ((h | h) | h) | h
    · exact Or.inl h
    · exact Or.inr (Or.inl h)
    · rw [h] at hsp
      simp at hsp
    · exact Or.inr (Or.inr h)

/-! ### Decimal digits and filename suffixes -/

/-- The digit character of a value below 10 decodes back to it. -/
theorem digitChar_val (k : Nat) (h : k < 10) : (Nat.digitChar k).toNat - 48 = k := by
  interval_cases k <;> decide

/-- Digit characters are never underscores. -/
theorem digitChar_ne_mark (k : Nat) (h : k < 10) : Nat.digitChar k ≠ '_' := by
  interval_cases k <;> decide

/-- Reading a digit appended on the right. -/
theorem valDigits_append_digit (l : List Char) (c : Char) :
    valDigits (l ++ [c]) = valDigits l * 10 + (c.toNat - 48) := by
  simp [valDigits, List.foldl_append]

/-- With enough fuel, `valDigits` inverts `natDigitsAux`. -/
theorem valDigits_natDigitsAux (fuel : Nat) :
    ∀ n, n < fuel → valDigits (natDigitsAux fuel n) = n := by
  induction fuel with
  | zero => omega
  | succ fuel ih =>
    intro n hn
    rw [natDigitsAux]
    by_cases h10 : n < 10
    · rw [if_pos h10]
      show valDigits [Nat.digitChar n] = n
      have := digitChar_val n h10
      simp [valDigits]
      omega
    · rw [if_neg h10]
      have hdiv : n / 10 < fuel := by omega
      rw [valDigits_append_digit, ih _ hdiv, digitChar_val _ (Nat.mod_lt _ (by omega))]
      omega

/-- Decimal rendering of naturals is injective. -/
theorem natDigits_inj {a b : Nat} (h : natDigits a = natDigits b) : a = b := by
  have ha := valDigits_natDigitsAux (a + 1) a (by omega)
  have hb := valDigits_natDigitsAux (b + 1) b (by omega)
  unfold natDigits at h
  rw [← ha, ← hb, h]

/-- No character of a digit rendering is an underscore. -/
theorem natDigitsAux_no_mark (fuel : Nat) :
    ∀ n, ∀ c ∈ natDigitsAux fuel n, c ≠ '_' := by
  induction fuel with
  | zero => intro n c hc; cases hc
  | succ fuel ih =>
    intro n c hc
    rw [natDigitsAux] at hc
    by_cases h10 : n < 10
    · rw [if_pos h10] at hc
      rw [List.mem_singleton.mp hc]
      exact digitChar_ne_mark n h10
    · rw [if_neg h10] at hc
      rcases List.mem_append.mp hc with h' | h'
      · exact ih _ c h'
      · rw [List.mem_singleton.mp h']
        exact digitChar_ne_mark _ (Nat.mod_lt _ (by omega))

/-- No character of `natDigits n` is an underscore. -/
theorem natDigits_no_mark (n : Nat) : ∀ c ∈ natDigits n, c ≠ '_' :=
  natDigitsAux_no_mark (n + 1) n

/-- `takeWhile` passes over a fully satisfying prefix. -/
theorem takeWhile_append_all (p : Char → Bool) (a b : List Char)
    (h : ∀ c ∈ a, p c = true) :
    (a ++ b).takeWhile p = a ++ b.takeWhile p := by
  induction a with
  | nil => rfl
  | cons x xs ih =>
    rw [List.cons_append, List.takeWhile_cons, if_pos (h x (List.mem_cons_self _ _))]
    rw [ih (fun c hc => h c (List.mem_cons_of_mem _ hc))]
    rfl

/-- The suffix after the last underscore of `X ++ '_' :: Y` is `Y`
whenever `Y` itself has no underscore. -/
theorem afterLastMark_append (X Y : List Char) (h : ∀ c ∈ Y, c ≠ '_') :
    afterLastMark (X ++ '_' :: Y) = Y := by
  unfold afterLastMark
  rw [List.reverse_append, List.reverse_cons]
  have hY : ∀ c ∈ Y.reverse, (fun c => decide (c ≠ '_')) c = true := by
    intro c hc
    simp only [decide_eq_true_eq]
    exact h c (List.mem_reverse.mp hc)
  rw [List.append_assoc, takeWhile_append_all _ _ _ hY]
  rw [List.singleton_append, List.takeWhile_cons]
  simp

/-- The suffix after the last underscore of a rendered filename shape. -/
theorem afterLastMark_shape (pre ts nd : List Char) (hnd : ∀ c ∈ nd, c ≠ '_') :
    afterLastMark (pre ++ '_' :: ts ++ '_' :: (nd ++ ".txt".toList)) =
      nd ++ ".txt".toList := by
  have heq : pre ++ '_' :: ts ++ '_' :: (nd ++ ".txt".toList) =
      (pre ++ '_' :: ts) ++ '_' :: (nd ++ ".txt".toList) := by
    simp
  rw [heq, afterLastMark_append]
  intro c hc
  rcases List.mem_append.mp hc with h' | h'
  · exact hnd c h'
  · have h'' : c ∈ ['.', 't', 'x', 't'] := h'
    simp at h''
    rcases h'' with h | h | h | h <;> (subst h; decide)

/-! ### The run invariant for save calls -/

/-- The last entry of a list is a member. -/
theorem mem_of_getLast? {α : Type} {l : List α} {a : α} (h : l.getLast? = some a) :
    a ∈ l := by
  induction l with
  | nil => cases h
  | cons x xs ih =>
    cases xs with
    | nil =>
      rw [List.getLast?_singleton, Option.some.injEq] at h
      rw [← h]
      exact List.mem_cons_self _ _
    | cons y ys =>
      rw [List.getLast?_cons_cons] at h
      exact List.mem_cons_of_mem _ (ih h)

/-- Invariant carried across the orchestrator loop: the recorded
save-call indices are strictly increasing and all below the next index,
and every recorded filename embeds the run timestamp followed by its
own index and `.txt`. -/
def goodSaves (ts : List Char) (idx : Nat) (saves : List (Nat × List Char)) : Prop :=
  List.Chain' (· < ·) (saves.map Prod.fst) ∧
  (∀ p ∈ saves, p.1 < idx) ∧
  (∀ p ∈ saves, ∃ pre, p.2 = pre ++ '_' :: ts ++ '_' :: (natDigits p.1 ++ ".txt".toList))

/-- The per-link loop preserves the invariant and never decreases the
index. -/
theorem processLinks_good (name ts : List Char) (fetchA : List Char → Fetch)
    (wOk : Nat → Bool) :
    ∀ (links : List (List Char)) (idx : Nat) (saves : List (Nat × List Char)),
      goodSaves ts idx saves →
      goodSaves ts (processLinks name ts fetchA wOk links idx saves).1
          (processLinks name ts fetchA wOk links idx saves).2 ∧
      idx ≤ (processLinks name ts fetchA wOk links idx saves).1 := by
  intro links
  induction links with
  | nil => exact fun idx saves h => ⟨h, Nat.le_refl _⟩
  | cons link rest ih =>
    intro idx saves h
    rw [processLinks]
    by_cases he : (scrape_article (fetchA link)).2.isEmpty
    · rw [if_pos he]
      exact ih idx saves h
    · rw [if_neg he]
      obtain ⟨hchain, hbound, hshape⟩ := h
      have hnew : goodSaves ts (idx + 1)
          (saves ++
            [(idx, (save_article wOk (scrape_article (fetchA link)).1 name ts idx).1)]) := by
        refine ⟨?_, ?_, ?_⟩
        · rw [List.map_append, List.chain'_append]
          refine ⟨hchain, List.chain'_singleton _, ?_⟩
          intro x hx y hy
          simp only [List.map_cons, List.map_nil, List.head?_cons, Option.mem_def,
            Option.some.injEq] at hy
          rw [← hy]
          have hx' : x ∈ saves.map Prod.fst := mem_of_getLast? hx
          obtain ⟨p, hp, rfl⟩ := List.mem_map.mp hx'
          exact hbound p hp
        · intro p hp
          rcases List.mem_append.mp hp with h' | h'
          · exact Nat.lt_succ_of_lt (hbound p h')
          · rw [List.mem_singleton.mp h']
            exact Nat.lt_succ_self idx
        · intro p hp
          rcases List.mem_append.mp hp with h' | h'
          · exact hshape p h'
          · rw [List.mem_singleton.mp h']
            exact ⟨name ++ '_' :: clean_filename (scrape_article (fetchA link)).1, by
              simp [save_article, fileName]⟩
      have hres := ih (idx + 1) _ hnew
      exact ⟨hres.1, Nat.le_trans (Nat.le_succ idx) hres.2⟩

/-- One source iteration preserves the invariant and never decreases
the index. -/
theorem runSource_good (ts : List Char) (maxA : Int) (wOk : Nat → Bool) (s : SourceRun)
    (idx : Nat) (saves : List (Nat × List Char)) (h : goodSaves ts idx saves) :
    goodSaves ts (runSource ts maxA wOk s idx saves).1
        (runSource ts maxA wOk s idx saves).2 ∧
    idx ≤ (runSource ts maxA wOk s idx saves).1 := by
  obtain ⟨sn, su, sl, sr, sf⟩ := s
  cases sl with
  | none => exact ⟨h, Nat.le_refl _⟩
  | some hrefs =>
    simp only [runSource]
    cases hc : classifyLinks sn su sr hrefs maxA with
    | error e => exact ⟨h, Nat.le_refl _⟩
    | ok links =>
      cases links with
      | nil => exact ⟨h, Nat.le_refl _⟩
      | cons a as => exact processLinks_good sn ts sf wOk (a :: as) idx saves h

/-- The whole run preserves the invariant. -/
theorem fetch_health_news_good (ts : List Char) (maxA : Int) (wOk : Nat → Bool) :
    ∀ (srcs : List SourceRun) (idx : Nat) (saves : List (Nat × List Char)),
      goodSaves ts idx saves →
      goodSaves ts (fetch_health_news ts maxA wOk srcs idx saves).1
          (fetch_health_news ts maxA wOk srcs idx saves).2 ∧
      idx ≤ (fetch_health_news ts maxA wOk srcs idx saves).1 := by
  intro srcs
  induction srcs with
  | nil => exact fun idx saves h => ⟨h, Nat.le_refl _⟩
  | cons s ss ih =>
    intro idx saves h
    simp only [fetch_health_news]
    have h1 := runSource_good ts maxA wOk s idx saves h
    have h2 := ih _ _ h1.1
    exact ⟨h2.1, Nat.le_trans h1.2 h2.2⟩

/-- The per-link loop ignores the write-success oracle (a failed write
is caught inside `save_article`). -/
theorem processLinks_wOk (name ts : List Char) (fetchA : List Char → Fetch)
    (w1 w2 : Nat → Bool) :
    ∀ links idx saves, processLinks name ts fetchA w1 links idx saves =
      processLinks name ts fetchA w2 links idx saves := by
  intro links
  induction links with
  | nil => exact fun idx saves => rfl
  | cons link rest ih =>
    intro idx saves
    rw [processLinks, processLinks]
    by_cases he : (scrape_article (fetchA link)).2.isEmpty
    · rw [if_pos he, if_pos he, ih]
    · rw [if_neg he, if_neg he, ih]
      simp [save_article]

/-- A source iteration ignores the write-success oracle. -/
theorem runSource_wOk (ts : List Char) (maxA : Int) (s : SourceRun)
    (w1 w2 : Nat → Bool) (idx : Nat) (saves : List (Nat × List Char)) :
    runSource ts maxA w1 s idx saves = runSource ts maxA w2 s idx saves := by
  obtain ⟨sn, su, sl, sr, sf⟩ := s
  cases sl with
  | none => rfl
  | some hrefs =>
    simp only [runSource]
    cases classifyLinks sn su sr hrefs maxA with
    | error e => rfl
    | ok links =>
      cases links with
      | nil => rfl
      | cons a as => exact processLinks_wOk sn ts sf w1 w2 (a :: as) idx saves

/-- The run ignores the write-success oracle. -/
theorem fetch_health_news_wOk (ts : List Char) (maxA : Int) (w1 w2 : Nat → Bool) :
    ∀ srcs idx saves, fetch_health_news ts maxA w1 srcs idx saves =
      fetch_health_news ts maxA w2 srcs idx saves := by
  intro srcs
  induction srcs with
  | nil => exact fun idx saves => rfl
  | cons s ss ih =>
    intro idx saves
    simp only [fetch_health_news]
    rw [runSource_wOk ts maxA s w1 w2, ih]

/-- A two-paragraph article page used to exercise the run model. -/
def demoPage : Page :=
  [Node.elem "html" [] [
    Node.elem "h1" [] [.text "T".toList],
    Node.elem "p" [] [.text "first paragraph with enough text".toList],
    Node.elem "p" [] [.text "second paragraph with enough text".toList]]]

example :
    (fetch_health_news "20250101_120000".toList 5 (fun _ => true)
      [⟨"Src".toList, "https://h.example/news".toList,
        some ["https://h.example/news/article-a".toList,
              "https://h.example/news/story-b".toList], id, fun _ => .ok demoPage⟩]
      0 []).2.map Prod.snd =
      ["Src_T_20250101_120000_0.txt".toList,
       "Src_T_20250101_120000_1.txt".toList] := by decide

/-- C9: over any run configuration, the indices passed to the model of
`save_article` are strictly increasing in call order, every generated
filename embeds the single run timestamp and its own index (so all
filenames of one run are pairwise distinct), and the run's outcome is
independent of whether any individual write succeeds — the index
advances regardless. -/
theorem c9_distinct_filenames (ts : List Char) (maxA : Int) (wOk : Nat → Bool)
    (srcs : List SourceRun) :
    List.Chain' (· < ·) ((fetch_health_news ts maxA wOk srcs 0 []).2.map Prod.fst) ∧
    ((fetch_health_news ts maxA wOk srcs 0 []).2.map Prod.snd).Nodup ∧
    (∀ p ∈ (fetch_health_news ts maxA wOk srcs 0 []).2,
      ∃ pre, p.2 = pre ++ '_' :: ts ++ '_' :: (natDigits p.1 ++ ".txt".toList)) ∧
    (∀ wOk', fetch_health_news ts maxA wOk' srcs 0 [] =
      fetch_health_news ts maxA wOk srcs 0 []) := by
  have h0 : goodSaves ts 0 [] :=
    ⟨List.chain'_nil, fun p hp => absurd hp (List.not_mem_nil p),
     fun p hp => absurd hp (List.not_mem_nil p)⟩
  obtain ⟨hchain, hbound, hshape⟩ := (fetch_health_news_good ts maxA wOk srcs 0 [] h0).1
  refine ⟨hchain, ?_, hshape, fun wOk' => fetch_health_news_wOk ts maxA wOk' wOk srcs 0 []⟩
  have hpw : ((fetch_health_news ts maxA wOk srcs 0 []).2).Pairwise
      (fun a b => a.1 < b.1) := List.pairwise_map.mp (List.chain'_iff_pairwise.mp hchain)
  have hnd : ((fetch_health_news ts maxA wOk srcs 0 []).2).Nodup :=
    hpw.imp (fun hlt heq => by rw [heq] at hlt; exact lt_irrefl _ hlt)
  refine List.Nodup.map_on ?_ hnd
  intro x hx y hy hxy
  obtain ⟨px, hpx⟩ := hshape x hx
  obtain ⟨py, hpy⟩ := hshape y hy
  have hax : afterLastMark x.2 = natDigits x.1 ++ ".txt".toList := by
    rw [hpx]
    exact afterLastMark_shape px ts _ (natDigits_no_mark _)
  have hay : afterLastMark y.2 = natDigits y.1 ++ ".txt".toList := by
    rw [hpy]
    exact afterLastMark_shape py ts _ (natDigits_no_mark _)
  have h1 : natDigits x.1 ++ ".txt".toList = natDigits y.1 ++ ".txt".toList := by
    rw [← hax, ← hay, hxy]
  have h3 : x.1 = y.1 := natDigits_inj (List.append_cancel_right h1)
  exact Prod.ext h3 hxy

end HealthNews
